import Mathlib

/-!
Shallow embedding of the multi-cursor selection engine in
`crates/editor/src/editor.rs` (struct `Editor`).  Buffer positions are
modelled as byte offsets (`Nat`), the buffer text as `List Char`.  The
Rust field `end` of `Selection` is named `stop` here because `end` is a
Lean keyword; `SelectionGoal::None` is the constructor
`SelectionGoal.none`.  Vec-based stacks whose top is the Rust `last()`
are modelled as lists whose top is the head.
-/

/-- `SelectionGoal` from the editor: sticky-column goal for vertical movement. -/
inductive SelectionGoal where
  | none : SelectionGoal
  | column : Nat → SelectionGoal
  | columnRange : Nat → Nat → SelectionGoal
deriving DecidableEq

/-- `Selection<usize>` from the editor, with offsets resolved against a snapshot.
The Rust field `end` is called `stop`. -/
structure Sel where
  id : Nat
  start : Nat
  stop : Nat
  reversed : Bool
  goal : SelectionGoal
deriving DecidableEq

/-- `Selection::head`: the moving end — `end` unless the selection is reversed. -/
def Sel.head (s : Sel) : Nat :=
  if s.reversed then s.start else s.stop

/-- A selection is well formed when its start does not exceed its end. -/
def Sel.wf (s : Sel) : Prop := s.start ≤ s.stop

instance : DecidablePred Sel.wf := fun s =>
  inferInstanceAs (Decidable (s.start ≤ s.stop))

/-- The union formed at editor.rs:3211-3217 when the later of two adjacent
selections is removed: keep the earlier entry's id, reversed flag and goal,
lower its start to the removed entry's start when that is smaller, and raise
its end to the removed entry's end when that is larger. -/
def mergedSel (s₁ s₂ : Sel) : Sel :=
  { s₁ with start := min s₂.start s₁.start, stop := max s₁.stop s₂.stop }

/-- The merge loop at the top of `Editor::update_selections` (editor.rs:3208-3221):
walk the list once; whenever `selections[i-1].end >= selections[i].start`, remove
the later element and union it into the earlier one. -/
def mergeSelections : List Sel → List Sel
  | [] => []
  | [s] => [s]
  | s₁ :: s₂ :: rest =>
    if s₂.start ≤ s₁.stop then
      mergeSelections (mergedSel s₁ s₂ :: rest)
    else
      s₁ :: mergeSelections (s₂ :: rest)
termination_by l => l.length

/-- Sorted-by-start, the precondition the single normalization pass relies on. -/
def sortedByStart (l : List Sel) : Prop :=
  List.Chain' (fun a b => a.start ≤ b.start) l

/-- The SelectionSet invariant: consecutive selections are strictly separated. -/
def normalized (l : List Sel) : Prop :=
  List.Chain' (fun a b => a.stop < b.start) l

/-- The invariant as the spec states it: pairwise, an earlier selection ends no
later than a later one starts. -/
def nonOverlapping (l : List Sel) : Prop :=
  List.Pairwise (fun a b => a.stop ≤ b.start) l

instance : DecidablePred sortedByStart := fun l =>
  inferInstanceAs (Decidable (List.Chain' (fun a b : Sel => a.start ≤ b.start) l))

instance : DecidablePred normalized := fun l =>
  inferInstanceAs (Decidable (List.Chain' (fun a b : Sel => a.stop < b.start) l))

instance : DecidablePred nonOverlapping := fun l =>
  inferInstanceAs (Decidable (List.Pairwise (fun a b : Sel => a.stop ≤ b.start) l))

/-- `Editor::select_ranges` (editor.rs:1057-1088): each range gets a fresh id in
iteration order; a backwards range is swapped and marked reversed. -/
def selectRangesSels (nextId : Nat) : List (Nat × Nat) → List Sel
  | [] => []
  | r :: rest =>
    (if r.2 < r.1 then
      ⟨nextId, r.2, r.1, true, SelectionGoal.none⟩
    else
      ⟨nextId, r.1, r.2, false, SelectionGoal.none⟩) :: selectRangesSels (nextId + 1) rest

theorem mergeSelections_nil : mergeSelections [] = [] := by
  simp [mergeSelections]

theorem mergeSelections_singleton (s : Sel) : mergeSelections [s] = [s] := by
  simp [mergeSelections]

/-- Normalized input passes through the merge loop unchanged. -/
theorem mergeSelections_of_normalized :
    ∀ l : List Sel, normalized l → mergeSelections l = l
  | [], _ => mergeSelections_nil
  | [s], _ => mergeSelections_singleton s
  | s₁ :: s₂ :: rest, h => by
    unfold normalized at h
    rw [List.chain'_cons] at h
    have hlt : ¬ s₂.start ≤ s₁.stop := by omega
    unfold mergeSelections
    rw [if_neg hlt]
    rw [mergeSelections_of_normalized (s₂ :: rest) h.2]

/-- One pass of the merge loop over a sorted, well-formed list yields a
well-formed normalized list whose first selection keeps the first input
selection's start. -/
theorem mergeSelections_spec :
    ∀ l : List Sel, (∀ s ∈ l, s.wf) → sortedByStart l →
      (∀ s ∈ mergeSelections l, s.wf) ∧ normalized (mergeSelections l) ∧
        ∀ a t, l = a :: t → ∃ b u, mergeSelections l = b :: u ∧ b.start = a.start := by
  intro l
  induction l using mergeSelections.induct with
  | case1 =>
    intro _ _
    refine ⟨by simp [mergeSelections_nil], by simp [mergeSelections_nil, normalized], ?_⟩
    intro a t h
    exact absurd h (by simp)
  | case2 s =>
    intro hwf _
    refine ⟨by simpa [mergeSelections_singleton] using hwf,
      by simp [mergeSelections_singleton, normalized], ?_⟩
    intro a t h
    cases h
    exact ⟨s, [], mergeSelections_singleton s, rfl⟩
  | case3 s₁ s₂ rest hcond ih =>
    intro hwf hs
    have h12 : s₁.start ≤ s₂.start := (List.chain'_cons.mp hs).1
    have hrest : List.Chain' (fun a b => a.start ≤ b.start) (s₂ :: rest) :=
      (List.chain'_cons.mp hs).2
    have hw1 : s₁.wf := hwf s₁ (by simp)
    have hw2 : s₂.wf := hwf s₂ (by simp)
    have hwf' : ∀ s ∈ mergedSel s₁ s₂ :: rest, s.wf := by
      intro s hmem
      rcases List.mem_cons.mp hmem with h | h
      · subst h
        unfold Sel.wf at *
        show min s₂.start s₁.start ≤ max s₁.stop s₂.stop
        omega
      · exact hwf s (by simp [h])
    have hs' : sortedByStart (mergedSel s₁ s₂ :: rest) := by
      unfold sortedByStart at *
      rw [List.chain'_cons'] at hrest ⊢
      refine ⟨?_, hrest.2⟩
      intro c hc
      have := hrest.1 c hc
      show min s₂.start s₁.start ≤ c.start
      omega
    obtain ⟨hwfm, hnorm, hhead⟩ := ih hwf' hs'
    have hgoal : mergeSelections (s₁ :: s₂ :: rest) =
        mergeSelections (mergedSel s₁ s₂ :: rest) := by
      conv_lhs => rw [mergeSelections]
      rw [if_pos hcond]
    rw [hgoal]
    refine ⟨hwfm, hnorm, ?_⟩
    intro a t heq
    cases heq
    obtain ⟨b, u, hb, hbs⟩ := hhead _ _ rfl
    refine ⟨b, u, hb, ?_⟩
    have hbs' : b.start = min s₂.start s₁.start := hbs
    omega
  | case4 s₁ s₂ rest hcond ih =>
    intro hwf hs
    have hrest : List.Chain' (fun a b => a.start ≤ b.start) (s₂ :: rest) :=
      (List.chain'_cons.mp hs).2
    obtain ⟨hwf', hnorm', hhead'⟩ :=
      ih (fun s h => hwf s (List.mem_cons_of_mem _ h)) hrest
    obtain ⟨b, u, hb, hbs⟩ := hhead' s₂ rest rfl
    have hgoal : mergeSelections (s₁ :: s₂ :: rest) = s₁ :: mergeSelections (s₂ :: rest) := by
      conv_lhs => rw [mergeSelections]
      rw [if_neg hcond]
    rw [hgoal]
    refine ⟨?_, ?_, ?_⟩
    · intro s h
      rcases List.mem_cons.mp h with h | h
      · rw [h]
        exact hwf s₁ (by simp)
      · exact hwf' s h
    · unfold normalized
      rw [hb, List.chain'_cons]
      exact ⟨by omega, by rw [← hb]; exact hnorm'⟩
    · intro a t heq
      cases heq
      exact ⟨s₁, mergeSelections (s₂ :: rest), rfl, rfl⟩

/-- In a normalized, well-formed list the first selection ends before every
later selection starts. -/
theorem normalized_head_le :
    ∀ (a : Sel) (l : List Sel), normalized (a :: l) → (∀ s ∈ l, s.wf) →
      ∀ b ∈ l, a.stop ≤ b.start := by
  intro a l
  induction l generalizing a with
  | nil => intro _ _ b hb; exact absurd hb (by simp)
  | cons c l' ih =>
    intro hn hwf b hb
    unfold normalized at hn
    rw [List.chain'_cons] at hn
    rcases List.mem_cons.mp hb with h | h
    · subst h; omega
    · have hcw : c.wf := hwf c (by simp)
      have := ih c hn.2 (fun s hs => hwf s (by simp [hs])) b h
      unfold Sel.wf at hcw
      omega

/-- Normalized well-formed lists satisfy the pairwise non-overlap property. -/
theorem normalized_nonOverlapping :
    ∀ l : List Sel, normalized l → (∀ s ∈ l, s.wf) → nonOverlapping l := by
  intro l
  induction l with
  | nil => intro _ _; exact List.Pairwise.nil
  | cons a l' ih =>
    intro hn hwf
    unfold nonOverlapping at *
    rw [List.pairwise_cons]
    have hn' : normalized l' := (List.chain'_cons'.mp hn).2
    refine ⟨normalized_head_le a l' hn (fun s hs => hwf s (by simp [hs])), ?_⟩
    exact ih hn' (fun s hs => hwf s (by simp [hs]))

/-- Every selection produced by `select_ranges` is well formed: a backwards
range is swapped before the selection is built (editor.rs:1070-1077). -/
theorem selectRangesSels_wf :
    ∀ (n : Nat) (rs : List (Nat × Nat)), ∀ s ∈ selectRangesSels n rs, s.wf := by
  intro n rs
  induction rs generalizing n with
  | nil => intro s hs; exact absurd hs (by simp [selectRangesSels])
  | cons r rest ih =>
    intro s hs
    unfold selectRangesSels at hs
    rcases List.mem_cons.mp hs with h | h
    · rw [h]
      unfold Sel.wf
      split <;> simp <;> omega
    · exact ih (n + 1) s h

/-- Non-overlap plus well-formedness forces the pairwise sorted-by-start order. -/
theorem nonOverlapping_sorted :
    ∀ l : List Sel, nonOverlapping l → (∀ s ∈ l, s.wf) →
      List.Pairwise (fun a b : Sel => a.start ≤ b.start) l := by
  intro l
  induction l with
  | nil => intro _ _; exact List.Pairwise.nil
  | cons a t ih =>
    intro h hwf
    unfold nonOverlapping at h
    rw [List.pairwise_cons] at h ⊢
    have haw : a.wf := hwf a (by simp)
    refine ⟨?_, ih h.2 (fun s hs => hwf s (by simp [hs]))⟩
    intro b hb
    have := h.1 b hb
    unfold Sel.wf at haw
    omega

/-- C1 (counterexample): the published set is *not* always sorted and
non-overlapping for every input selection list.  Passing the unsorted range
list `[0..1, 5..6, 0..1]` to `select_ranges` makes the single merge pass of
`update_selections` publish `[sel 0..1, sel 0..6]`, an overlapping pair: the
pass never revisits an index after a merge widens its left neighbour. -/
theorem C1_counterexample :
    ¬ nonOverlapping (mergeSelections (selectRangesSels 0 [(0, 1), (5, 6), (0, 1)])) := by
  have h : mergeSelections (selectRangesSels 0 [(0, 1), (5, 6), (0, 1)]) =
      [⟨0, 0, 1, false, SelectionGoal.none⟩, ⟨1, 0, 6, false, SelectionGoal.none⟩] := by
    simp [selectRangesSels, mergeSelections, mergedSel]
  rw [h]
  decide

/-- C1 (amended): whenever `update_selections` receives a selection list that is
sorted by start (as every caller in the editor supplies, including
`select_ranges` when its ranges arrive in order), the published SelectionSet is
sorted by start and pairwise non-overlapping, with every overlapping or
touching pair merged (consecutive selections end strictly before the next one
starts). -/
theorem C1_update_selections_invariant :
    (∀ l : List Sel, (∀ s ∈ l, s.wf) → sortedByStart l →
      nonOverlapping (mergeSelections l) ∧
        List.Pairwise (fun a b : Sel => a.start ≤ b.start) (mergeSelections l) ∧
          normalized (mergeSelections l)) ∧
    ∀ (n : Nat) (rs : List (Nat × Nat)), sortedByStart (selectRangesSels n rs) →
      nonOverlapping (mergeSelections (selectRangesSels n rs)) := by
  constructor
  · intro l hwf hs
    obtain ⟨hwf', hnorm, _⟩ := mergeSelections_spec l hwf hs
    have hno := normalized_nonOverlapping _ hnorm hwf'
    exact ⟨hno, nonOverlapping_sorted _ hno hwf', hnorm⟩
  · intro n rs hs
    obtain ⟨hwf', hnorm, _⟩ := mergeSelections_spec _ (selectRangesSels_wf n rs) hs
    exact normalized_nonOverlapping _ hnorm hwf'

/-- C1 (witness): the invariant theorem applied to the concrete sorted input
`[1..3, 5..6]`. -/
theorem C1_witness :
    nonOverlapping (mergeSelections
      [⟨0, 1, 3, false, SelectionGoal.none⟩, ⟨1, 5, 6, false, SelectionGoal.none⟩]) :=
  (C1_update_selections_invariant.1
    [⟨0, 1, 3, false, SelectionGoal.none⟩, ⟨1, 5, 6, false, SelectionGoal.none⟩]
    (by decide) (by simp [sortedByStart])).1

/-- C3 (counterexample): merging an overlapping pair keeps the id of the
*earlier-positioned* selection, not the smaller id.  For the overlapping pair
with ids 5 (first, range 0..3) and 2 (second, range 2..4), the merged
selection keeps id 5 and drops the smaller id 2. -/
theorem C3_counterexample :
    mergeSelections
        [⟨5, 0, 3, false, SelectionGoal.none⟩, ⟨2, 2, 4, false, SelectionGoal.none⟩] =
      [⟨5, 0, 4, false, SelectionGoal.none⟩] ∧ (2 : Nat) < 5 := by
  constructor
  · simp [mergeSelections, mergedSel]
  · decide

/-- C3 (amended): whenever the normalization pass merges an adjacent
overlapping or touching pair, the merged selection has the minimum start and
the maximum end of the pair and keeps the id (and reversed flag and goal) of
the earlier selection in the list, dropping the other id — which is the
smaller id exactly when ids increase with list position. -/
theorem C3_merge_min_max_first_id (s₁ s₂ : Sel) (h : s₂.start ≤ s₁.stop) :
    mergeSelections [s₁, s₂] =
      [{ s₁ with start := min s₁.start s₂.start, stop := max s₁.stop s₂.stop }] := by
  rw [mergeSelections, if_pos h, mergeSelections_singleton, mergedSel, Nat.min_comm]

/-- C3 (witness): the amended merge theorem at the touching pair
`id 1: 0..2`, `id 2: 2..4`. -/
theorem C3_witness :
    mergeSelections
        [⟨1, 0, 2, false, SelectionGoal.none⟩, ⟨2, 2, 4, false, SelectionGoal.none⟩] =
      [⟨1, 0, 4, false, SelectionGoal.none⟩] := by
  simpa using
    C3_merge_min_max_first_id
      ⟨1, 0, 2, false, SelectionGoal.none⟩ ⟨2, 2, 4, false, SelectionGoal.none⟩ (by decide)

/-- `Iterator::min_by_key(|s| s.id)`: the first selection with minimal id. -/
def minById (l : List Sel) : Option Sel :=
  l.foldl (fun acc s =>
    match acc with
    | Option.none => some s
    | some m => if s.id < m.id then some s else some m) Option.none

/-- `Iterator::max_by_key(|s| s.id)`: the last selection with maximal id. -/
def maxById (l : List Sel) : Option Sel :=
  l.foldl (fun acc s =>
    match acc with
    | Option.none => some s
    | some m => if m.id ≤ s.id then some s else some m) Option.none

/-- Collapsing a selection onto its head (editor.rs:1050-1051). -/
def Sel.collapsedToHead (s : Sel) : Sel :=
  { s with start := s.head, stop := s.head }

/-- The state `Editor::cancel` reads: selections, the pending drag selection,
and whether diagnostics are pinned (`active_diagnostics`). -/
structure CancelEditor where
  selections : List Sel
  pendingSelection : Option Sel
  activeDiagnostics : Bool
deriving DecidableEq

/-- `Editor::cancel` (editor.rs:1031-1055): dismiss pinned diagnostics first;
else take the pending drag selection, installing it only when no selections
exist; else install the oldest (minimal-id) selection, collapsed to its head
only when it is the sole selection. -/
def cancel (st : CancelEditor) : CancelEditor :=
  if st.activeDiagnostics then
    { st with activeDiagnostics := false }
  else
    match st.pendingSelection with
    | some pending =>
      if st.selections = [] then
        { st with pendingSelection := Option.none,
                  selections := mergeSelections [pending] }
      else
        { st with pendingSelection := Option.none }
    | Option.none =>
      match minById st.selections with
      | Option.none => st
      | some oldest =>
        let installed := if st.selections.length = 1 then oldest.collapsedToHead else oldest
        { st with selections := mergeSelections [installed] }

theorem minById_go_spec :
    ∀ (l : List Sel) (m₀ m : Sel),
      l.foldl (fun acc s =>
        match acc with
        | Option.none => some s
        | some m => if s.id < m.id then some s else some m) (some m₀) = some m →
      (m = m₀ ∨ m ∈ l) ∧ m.id ≤ m₀.id ∧ ∀ s ∈ l, m.id ≤ s.id := by
  intro l
  induction l with
  | nil =>
    intro m₀ m h
    simp at h
    exact ⟨Or.inl h.symm, by rw [h], by simp⟩
  | cons a t ih =>
    intro m₀ m h
    rw [List.foldl_cons] at h
    by_cases hc : a.id < m₀.id
    · rw [show (match some m₀ with
          | Option.none => some a
          | some m => if a.id < m.id then some a else some m) = some a by simp [hc]] at h
      obtain ⟨hmem, hle, hall⟩ := ih a m h
      refine ⟨?_, ?_, ?_⟩
      · rcases hmem with h' | h'
        · exact Or.inr (by simp [h'])
        · exact Or.inr (by simp [h'])
      · omega
      · intro s hs
        rcases List.mem_cons.mp hs with h' | h'
        · rw [h']; omega
        · exact hall s h'
    · rw [show (match some m₀ with
          | Option.none => some a
          | some m => if a.id < m.id then some a else some m) = some m₀ by simp [hc]] at h
      obtain ⟨hmem, hle, hall⟩ := ih m₀ m h
      refine ⟨?_, hle, ?_⟩
      · rcases hmem with h' | h'
        · exact Or.inl h'
        · exact Or.inr (by simp [h'])
      · intro s hs
        rcases List.mem_cons.mp hs with h' | h'
        · rw [h']; omega
        · exact hall s h'

/-- `minById` returns a member holding the minimal id. -/
theorem minById_spec :
    ∀ (l : List Sel) (m : Sel), minById l = some m →
      m ∈ l ∧ ∀ s ∈ l, m.id ≤ s.id := by
  intro l m h
  match l, h with
  | a :: t, h =>
    unfold minById at h
    rw [List.foldl_cons] at h
    obtain ⟨hmem, hle, hall⟩ := minById_go_spec t a m h
    refine ⟨?_, ?_⟩
    · rcases hmem with h' | h'
      · simp [h']
      · simp [h']
    · intro s hs
      rcases List.mem_cons.mp hs with h' | h'
      · rw [h']; omega
      · exact hall s h'

/-- C4 (counterexample): with two selections, no pinned diagnostics and no
pending drag, `cancel` installs the oldest selection *unchanged* rather than
collapsed to its head: from selections `id 0: 1..3`, `id 1: 5..6` it publishes
`[id 0: 1..3]`, not `[id 0: 3..3]`. -/
theorem C4_counterexample :
    (cancel ⟨[⟨0, 1, 3, false, SelectionGoal.none⟩, ⟨1, 5, 6, false, SelectionGoal.none⟩],
        Option.none, false⟩).selections =
        [⟨0, 1, 3, false, SelectionGoal.none⟩] ∧
      (⟨0, 1, 3, false, SelectionGoal.none⟩ : Sel) ≠
        (⟨0, 1, 3, false, SelectionGoal.none⟩ : Sel).collapsedToHead := by
  constructor
  · simp [cancel, minById, mergeSelections_singleton]
  · decide

/-- C4 (amended): when `cancel` runs with no pinned diagnostics and no pending
drag, the SelectionSet is replaced by just the oldest (minimal-id) selection;
it is collapsed to its head only when it is the sole selection, and is
installed unchanged when more than one selection exists. -/
theorem C4_cancel_installs_oldest (st : CancelEditor) (oldest : Sel)
    (hd : st.activeDiagnostics = false) (hp : st.pendingSelection = Option.none)
    (hm : minById st.selections = some oldest) :
    oldest ∈ st.selections ∧ (∀ s ∈ st.selections, oldest.id ≤ s.id) ∧
      (cancel st).selections =
        [if st.selections.length = 1 then oldest.collapsedToHead else oldest] := by
  obtain ⟨hmem, hmin⟩ := minById_spec st.selections oldest hm
  refine ⟨hmem, hmin, ?_⟩
  unfold cancel
  rw [hd, hp, hm]
  by_cases hl : st.selections.length = 1
  · simp [hl, mergeSelections_singleton]
  · simp [hl, mergeSelections_singleton]

/-- C4 (witness): the amended cancel theorem at the concrete two-selection
state used in the counterexample. -/
theorem C4_witness :
    (cancel ⟨[⟨0, 1, 3, false, SelectionGoal.none⟩, ⟨1, 5, 6, false, SelectionGoal.none⟩],
        Option.none, false⟩).selections = [⟨0, 1, 3, false, SelectionGoal.none⟩] := by
  have h := C4_cancel_installs_oldest
    ⟨[⟨0, 1, 3, false, SelectionGoal.none⟩, ⟨1, 5, 6, false, SelectionGoal.none⟩],
      Option.none, false⟩
    ⟨0, 1, 3, false, SelectionGoal.none⟩ rfl rfl (by simp [minById])
  simpa using h.2.2

/-- A bracket pair from the language configuration; the Rust field `end` is
called `stop`. -/
structure BracketPair where
  start : List Char
  stop : List Char
  newline : Bool
deriving DecidableEq

/-- `BracketPairState` (autoclose stack entry): one recorded range per
selection spanning the inserted closer, resolved to offsets, plus the pair. -/
structure BracketPairState where
  ranges : List (Nat × Nat)
  pair : BracketPair
deriving DecidableEq

/-- The retention test of the autoclose pop loop (editor.rs:3228-3239): the
selection count matches the entry's range count and every selection's head
lies inside the corresponding recorded range, inclusive at both ends. -/
def autocloseEntryRetained (sels : List Sel) (entry : BracketPairState) : Prop :=
  sels.length = entry.ranges.length ∧
    ∀ p ∈ sels.zip entry.ranges, p.2.1 ≤ p.1.head ∧ p.1.head ≤ p.2.2

instance : ∀ sels entry, Decidable (autocloseEntryRetained sels entry) := fun sels entry =>
  inferInstanceAs (Decidable (sels.length = entry.ranges.length ∧
    ∀ p ∈ sels.zip entry.ranges, p.2.1 ≤ p.1.head ∧ p.1.head ≤ p.2.2))

/-- The match the spec claims the pop loop enforces: every live selection is an
empty caret sitting exactly at the entry's recorded end anchor. -/
def autocloseExactMatch (sels : List Sel) (entry : BracketPairState) : Prop :=
  sels.length = entry.ranges.length ∧
    ∀ p ∈ sels.zip entry.ranges, p.1.start = p.1.stop ∧ p.1.head = p.2.2

instance : ∀ sels entry, Decidable (autocloseExactMatch sels entry) := fun sels entry =>
  inferInstanceAs (Decidable (sels.length = entry.ranges.length ∧
    ∀ p ∈ sels.zip entry.ranges, p.1.start = p.1.stop ∧ p.1.head = p.2.2))

/-- The pop loop of `update_selections` (editor.rs:3227-3246): pop entries off
the top of the autoclose stack until the top is retained or the stack is
empty. -/
def popAutocloseStack (sels : List Sel) : List BracketPairState → List BracketPairState
  | [] => []
  | e :: rest =>
    if autocloseEntryRetained sels e then e :: rest else popAutocloseStack sels rest

/-- The editor state touched by typing: buffer text, selections, the autoclose
stack, and the language's bracket pairs. -/
structure AutocloseEditor where
  text : List Char
  selections : List Sel
  autocloseStack : List BracketPairState
  brackets : List BracketPair
deriving DecidableEq

/-- `Editor::update_selections` restricted to the state modelled here: merge
the incoming list, pop the autoclose stack against the merged list, install. -/
def updateSelectionsAc (st : AutocloseEditor) (sels : List Sel) : AutocloseEditor :=
  { st with
      selections := mergeSelections sels,
      autocloseStack := popAutocloseStack (mergeSelections sels) st.autocloseStack }

/-- `MultiBufferSnapshot::contains_str_at`: the text at `pos` begins with `s`. -/
def containsStrAt (text : List Char) (pos : Nat) (s : List Char) : Bool :=
  decide ((text.drop pos).take s.length = s)

/-- The edit loop of `Editor::insert` (editor.rs:1258-1285): every selection's
range is replaced by `s` in one atomic multi-range edit (replayed here
sequentially with a running delta); each resulting selection is a caret after
the inserted text, with reversed cleared and goal reset. -/
def insertGo (s : List Char) : List Sel → Int → List Char → List Char × List Sel
  | [], _, text => (text, [])
  | sel :: rest, delta, text =>
    let a := (Int.ofNat sel.start + delta).toNat
    let b := (Int.ofNat sel.stop + delta).toNat
    let text' := text.take a ++ s ++ text.drop b
    let caret := a + s.length
    let delta' := delta + Int.ofNat s.length - (Int.ofNat sel.stop - Int.ofNat sel.start)
    let res := insertGo s rest delta' text'
    (res.1, ⟨sel.id, caret, caret, false, SelectionGoal.none⟩ :: res.2)

/-- `Editor::insert` on the modelled state. -/
def insertText (st : AutocloseEditor) (s : List Char) : AutocloseEditor :=
  let r := insertGo s st.selections 0 st.text
  updateSelectionsAc { st with text := r.1 } r.2

/-- The closer-insertion loop of `Editor::autoclose_pairs` (editor.rs:1315-1339):
insert the closer at every caret; each caret stays before its closer
(anchor bias), and the recorded entry range sits at the caret offset. -/
def insertAtCarets (closer : List Char) :
    List Sel → Nat → List Char → List Char × List Sel × List (Nat × Nat)
  | [], _, text => (text, [], [])
  | sel :: rest, delta, text =>
    let offset := sel.start + delta
    let text' := text.take offset ++ closer ++ text.drop offset
    let r := insertAtCarets closer rest (delta + closer.length) text'
    (r.1, { sel with start := offset, stop := offset } :: r.2.1, (offset, offset) :: r.2.2)

/-- `Editor::autoclose_pairs` (editor.rs:1287-1346): when some bracket pair's
start token immediately precedes the first selection and every other
selection, insert the end token at every selection and, for single-character
closers only, push a stack entry recording one range per selection. -/
def autoclosePairs (st : AutocloseEditor) : AutocloseEditor :=
  match st.selections with
  | [] => st
  | first :: others =>
    match st.brackets.find? (fun pair =>
        containsStrAt st.text (first.start - pair.start.length) pair.start) with
    | Option.none => st
    | some pair =>
      if others.all (fun sel =>
          containsStrAt st.text (sel.start - pair.start.length) pair.start) then
        let r := insertAtCarets pair.stop st.selections 0 st.text
        { st with
            text := r.1,
            selections := r.2.1,
            autocloseStack :=
              if pair.stop.length = 1 then ⟨r.2.2, pair⟩ :: st.autocloseStack
              else st.autocloseStack }
      else st

/-- `Editor::skip_autoclose_end` (editor.rs:1348-1389): when the typed text is
the top entry's end token and every selection is an empty caret exactly at the
entry's recorded end offset, pop the entry and advance every caret one
position, without touching the buffer.  (The source `debug_assert`s that the
selection and range counts agree before zipping them.) -/
def skipAutocloseEnd (st : AutocloseEditor) (typed : List Char) : Option AutocloseEditor :=
  match st.autocloseStack with
  | [] => Option.none
  | entry :: rest =>
    if typed ≠ entry.pair.stop then Option.none
    else if ∀ p ∈ st.selections.zip entry.ranges, p.1.start = p.1.stop ∧ p.1.start = p.2.2 then
      some (updateSelectionsAc { st with autocloseStack := rest }
        (st.selections.map fun sel =>
          ⟨sel.id, sel.start + 1, sel.start + 1, false, SelectionGoal.none⟩))
    else Option.none

/-- `Editor::handle_input` (editor.rs:1124-1132): try to skip over an
autoclosed closer; otherwise insert the typed text and run autoclosing. -/
def handleInput (st : AutocloseEditor) (typed : List Char) : AutocloseEditor :=
  match skipAutocloseEnd st typed with
  | some st' => st'
  | Option.none => autoclosePairs (insertText st typed)

/-- The pop loop returns a suffix of the stack it is given. -/
theorem popAutocloseStack_suffix :
    ∀ (sels : List Sel) (stack : List BracketPairState),
      (popAutocloseStack sels stack).IsSuffix stack := by
  intro sels stack
  induction stack with
  | nil => exact List.suffix_refl _
  | cons e rest ih =>
    unfold popAutocloseStack
    by_cases h : autocloseEntryRetained sels e
    · rw [if_pos h]
    · rw [if_neg h]
      exact ih.trans (List.suffix_cons e rest)

/-- The pop loop stops only on an empty stack or a retained top entry. -/
theorem popAutocloseStack_spec :
    ∀ (sels : List Sel) (stack : List BracketPairState),
      popAutocloseStack sels stack = [] ∨
        ∃ e rest, popAutocloseStack sels stack = e :: rest ∧
          autocloseEntryRetained sels e := by
  intro sels stack
  induction stack with
  | nil => exact Or.inl rfl
  | cons e rest ih =>
    unfold popAutocloseStack
    by_cases h : autocloseEntryRetained sels e
    · rw [if_pos h]
      exact Or.inr ⟨e, rest, rfl, h⟩
    · rw [if_neg h]
      exact ih

theorem zipAllLeft {α β : Type} (P : α × β → Prop) :
    ∀ (l₁ : List α) (l₂ : List β), l₁.length = l₂.length →
      (∀ p ∈ l₁.zip l₂, P p) → ∀ a ∈ l₁, ∃ b, P (a, b) := by
  intro l₁
  induction l₁ with
  | nil =>
    intro l₂ _ _ a ha
    exact absurd ha (by simp)
  | cons x t ih =>
    intro l₂ hlen hall a ha
    cases l₂ with
    | nil => simp at hlen
    | cons y t₂ =>
      rcases List.mem_cons.mp ha with h | h
      · exact ⟨y, h ▸ hall (x, y) (by simp)⟩
      · exact ih t₂ (by simpa using hlen) (fun p hp => hall p (by simp [hp])) a h

/-- Advancing a normalized list of empty carets by one position keeps it
normalized. -/
theorem normalized_advance :
    ∀ l : List Sel, normalized l → (∀ s ∈ l, s.start = s.stop) →
      normalized (l.map fun sel =>
        (⟨sel.id, sel.start + 1, sel.start + 1, false, SelectionGoal.none⟩ : Sel))
  | [], _, _ => by simp [normalized]
  | [s], _, _ => by simp [normalized]
  | a :: b :: t, h, hempty => by
    unfold normalized at *
    rw [List.chain'_cons] at h
    rw [List.map_cons, List.map_cons, List.chain'_cons]
    have ha : a.start = a.stop := hempty a (by simp)
    refine ⟨by simp; omega, ?_⟩
    simpa using normalized_advance (b :: t) h.2 (fun s hs => hempty s (by simp [hs]))

/-- C6 (counterexample): after installing the selection `id 0: 2..4` (a
non-empty selection whose head 4 lies inside the recorded range `2..5`),
`update_selections` keeps the autoclose entry even though the selection is not
an empty caret at the entry's recorded end anchor 5, contradicting the claimed
exact-match invariant. -/
theorem C6_counterexample :
    ((updateSelectionsAc ⟨[], [], [⟨[(2, 5)], ⟨['('], [')'], false⟩⟩], []⟩
        [⟨0, 2, 4, false, SelectionGoal.none⟩]).autocloseStack =
      [⟨[(2, 5)], ⟨['('], [')'], false⟩⟩]) ∧
    ¬ autocloseExactMatch [⟨0, 2, 4, false, SelectionGoal.none⟩]
        ⟨[(2, 5)], ⟨['('], [')'], false⟩⟩ := by
  constructor
  · rw [updateSelectionsAc, mergeSelections_singleton]
    rw [popAutocloseStack, if_pos (by decide)]
  · decide

/-- C6 (amended): after every installation of a new SelectionSet through
`update_selections`, the autoclose stack has been popped down until its top
entry is retained by the live (merged) selections — same count, and every
selection's head lying inside the corresponding recorded range, inclusive —
or the stack is empty.  (The code checks containment of the head, not that
each selection is an empty caret exactly at the recorded end anchor.) -/
theorem C6_autoclose_stack_popped (st : AutocloseEditor) (sels : List Sel) :
    (updateSelectionsAc st sels).autocloseStack = [] ∨
      ∃ e rest, (updateSelectionsAc st sels).autocloseStack = e :: rest ∧
        autocloseEntryRetained (updateSelectionsAc st sels).selections e := by
  unfold updateSelectionsAc
  exact popAutocloseStack_spec (mergeSelections sels) st.autocloseStack

/-- C5 (confirmed): when the typed text equals the top autoclose entry's end
token and every selection is an empty caret exactly at that entry's recorded
end offset, `handle_input` leaves the buffer text unchanged, advances every
caret one position past the existing closer, and removes the top entry (the
installed stack is a suffix of the popped stack). -/
theorem C5_skip_autoclose_end (st : AutocloseEditor) (entry : BracketPairState)
    (rest : List BracketPairState) (typed : List Char)
    (hstack : st.autocloseStack = entry :: rest)
    (htyped : typed = entry.pair.stop)
    (hlen : st.selections.length = entry.ranges.length)
    (hpos : ∀ p ∈ st.selections.zip entry.ranges, p.1.start = p.1.stop ∧ p.1.start = p.2.2)
    (hnorm : normalized st.selections) :
    (handleInput st typed).text = st.text ∧
      (handleInput st typed).selections =
        (st.selections.map fun sel =>
          ⟨sel.id, sel.start + 1, sel.start + 1, false, SelectionGoal.none⟩) ∧
      (handleInput st typed).autocloseStack.IsSuffix rest := by
  have hempty : ∀ s ∈ st.selections, s.start = s.stop := by
    intro s hs
    obtain ⟨b, hb⟩ := zipAllLeft _ st.selections entry.ranges hlen hpos s hs
    exact hb.1
  have hmerge : mergeSelections (st.selections.map fun sel =>
      (⟨sel.id, sel.start + 1, sel.start + 1, false, SelectionGoal.none⟩ : Sel)) =
      st.selections.map fun sel =>
        (⟨sel.id, sel.start + 1, sel.start + 1, false, SelectionGoal.none⟩ : Sel) :=
    mergeSelections_of_normalized _ (normalized_advance st.selections hnorm hempty)
  have hskip : skipAutocloseEnd st typed =
      some (updateSelectionsAc { st with autocloseStack := rest }
        (st.selections.map fun sel =>
          ⟨sel.id, sel.start + 1, sel.start + 1, false, SelectionGoal.none⟩)) := by
    unfold skipAutocloseEnd
    rw [hstack]
    dsimp only
    rw [if_neg (show ¬ typed ≠ entry.pair.stop from fun h => h htyped)]
    rw [if_pos hpos]
  have hh : handleInput st typed =
      updateSelectionsAc { st with autocloseStack := rest }
        (st.selections.map fun sel =>
          ⟨sel.id, sel.start + 1, sel.start + 1, false, SelectionGoal.none⟩) := by
    unfold handleInput
    rw [hskip]
  rw [hh]
  unfold updateSelectionsAc
  rw [hmerge]
  exact ⟨rfl, rfl, popAutocloseStack_suffix _ _⟩

/-- C5 (witness): text `"()"` with one caret between the brackets sitting at
the recorded closer range `1..1`; typing `")"` leaves the text unchanged,
moves the caret to offset 2, and pops the entry. -/
theorem C5_witness :
    (handleInput
        ⟨['(', ')'], [⟨0, 1, 1, false, SelectionGoal.none⟩],
          [⟨[(1, 1)], ⟨['('], [')'], false⟩⟩], [⟨['('], [')'], false⟩]⟩
        [')']).text = ['(', ')'] ∧
      (handleInput
        ⟨['(', ')'], [⟨0, 1, 1, false, SelectionGoal.none⟩],
          [⟨[(1, 1)], ⟨['('], [')'], false⟩⟩], [⟨['('], [')'], false⟩]⟩
        [')']).selections = [⟨0, 2, 2, false, SelectionGoal.none⟩] := by
  have h := C5_skip_autoclose_end
    ⟨['(', ')'], [⟨0, 1, 1, false, SelectionGoal.none⟩],
      [⟨[(1, 1)], ⟨['('], [')'], false⟩⟩], [⟨['('], [')'], false⟩]⟩
    ⟨[(1, 1)], ⟨['('], [')'], false⟩⟩ [] [')'] rfl rfl (by decide) (by decide)
    (by simp [normalized])
  exact ⟨h.1, by simpa using h.2.1⟩

/-- The sort key of `new_selections.sort_unstable_by_key(|s| s.start)`
(editor.rs:2780). -/
def relStart (a b : Sel) : Prop := a.start ≤ b.start

instance : DecidableRel relStart := fun a b =>
  inferInstanceAs (Decidable (a.start ≤ b.start))

instance : IsTotal Sel relStart := ⟨fun a b => Nat.le_total a.start b.start⟩

instance : IsTrans Sel relStart := ⟨fun _ _ _ hab hbc => Nat.le_trans hab hbc⟩

/-- The state `select_larger/smaller_syntax_node` touch: the selections and the
syntax-expansion stack (`select_larger_syntax_node_stack`, top first). -/
structure SyntaxEditor where
  selections : List Sel
  stack : List (List Sel)
deriving DecidableEq

/-- The per-selection expansion loop of `select_larger_syntax_node`
(editor.rs:2756-2765): walk the successive `range_for_syntax_ancestor` results
(supplied by the syntax-tree collaborator as the finite ancestor chain of the
old range), stopping at the first range neither of whose ends intersects a
folded region; if the chain ends first, the last ancestor wins. -/
def expandLoop (fold : Nat → Bool) : Nat × Nat → List (Nat × Nat) → Nat × Nat
  | r, [] => r
  | _, c :: rest =>
    if fold c.1 = false ∧ fold c.2 = false then c else expandLoop fold c rest

/-- One selection after expansion (editor.rs:2767-2774): expanded range, goal
reset, id and reversed flag kept. -/
def expandSel (chain : Nat × Nat → List (Nat × Nat)) (fold : Nat → Bool) (s : Sel) : Sel :=
  let r := expandLoop fold (s.start, s.stop) (chain (s.start, s.stop))
  ⟨s.id, r.1, r.2, s.reversed, SelectionGoal.none⟩

/-- `selected_larger_node` (editor.rs:2767): did any selection's range grow? -/
def grownFlag (chain : Nat × Nat → List (Nat × Nat)) (fold : Nat → Bool)
    (st : SyntaxEditor) : Bool :=
  st.selections.any fun s =>
    decide (expandLoop fold (s.start, s.stop) (chain (s.start, s.stop)) ≠ (s.start, s.stop))

/-- `Editor::select_larger_syntax_node` (editor.rs:2740-2784): if some
selection grew, push the pre-expansion selections and install the expanded
list re-sorted by start (the stack is taken out before `update_selections`
runs, so it survives the install). -/
def selectLargerSyntaxNode (chain : Nat × Nat → List (Nat × Nat)) (fold : Nat → Bool)
    (st : SyntaxEditor) : SyntaxEditor :=
  if grownFlag chain fold st then
    { selections :=
        mergeSelections (List.insertionSort relStart (st.selections.map (expandSel chain fold))),
      stack := st.selections :: st.stack }
  else st

/-- `Editor::select_smaller_syntax_node` (editor.rs:2786-2796): pop the most
recent pushed set and install it; no-op on an empty stack. -/
def selectSmallerSyntaxNode (st : SyntaxEditor) : SyntaxEditor :=
  match st.stack with
  | [] => st
  | sels :: rest => { selections := mergeSelections sels, stack := rest }

/-- Expansion never produces a backwards range when the ancestor chain is well
formed. -/
theorem expandLoop_wf (fold : Nat → Bool) :
    ∀ (cs : List (Nat × Nat)) (r : Nat × Nat), r.1 ≤ r.2 → (∀ c ∈ cs, c.1 ≤ c.2) →
      (expandLoop fold r cs).1 ≤ (expandLoop fold r cs).2 := by
  intro cs
  induction cs with
  | nil => intro r hr _; exact hr
  | cons c rest ih =>
    intro r hr hcs
    unfold expandLoop
    by_cases h : fold c.1 = false ∧ fold c.2 = false
    · rw [if_pos h]
      exact hcs c (by simp)
    · rw [if_neg h]
      exact ih c (hcs c (by simp)) (fun d hd => hcs d (by simp [hd]))

/-- After a growing expansion the installed selections are normalized and well
formed. -/
theorem selectLarger_selections_normWf (chain : Nat × Nat → List (Nat × Nat))
    (fold : Nat → Bool) (hchain : ∀ r : Nat × Nat, ∀ c ∈ chain r, c.1 ≤ c.2)
    (sels : List Sel) (hwf : ∀ s ∈ sels, s.wf) :
    normalized (mergeSelections
        (List.insertionSort relStart (sels.map (expandSel chain fold)))) ∧
      ∀ s ∈ mergeSelections
        (List.insertionSort relStart (sels.map (expandSel chain fold))), s.wf := by
  have hwfmap : ∀ s ∈ List.insertionSort relStart (sels.map (expandSel chain fold)), s.wf := by
    intro s hs
    rw [List.mem_insertionSort] at hs
    obtain ⟨t, ht, rfl⟩ := List.mem_map.mp hs
    exact expandLoop_wf fold _ _ (hwf t ht) (fun c hc => hchain _ c hc)
  have hsorted : sortedByStart (List.insertionSort relStart (sels.map (expandSel chain fold))) :=
    (List.sorted_insertionSort relStart _).chain'
  obtain ⟨h1, h2, _⟩ := mergeSelections_spec _ hwfmap hsorted
  exact ⟨h2, h1⟩

/-- Iterating `select_smaller` on an empty stack changes nothing. -/
theorem smaller_iterate_empty :
    ∀ (k : Nat) (sels : List Sel),
      selectSmallerSyntaxNode^[k] ⟨sels, []⟩ = ⟨sels, []⟩ := by
  intro k
  induction k with
  | zero => intro sels; rfl
  | succ k ih =>
    intro sels
    rw [Function.iterate_succ_apply]
    rw [show selectSmallerSyntaxNode ⟨sels, []⟩ = ⟨sels, []⟩ from rfl]
    exact ih sels

/-- Unwinding: enough `select_smaller` calls restore the bottom stack entry and
empty the stack, as long as every entry is normalized. -/
theorem smaller_unwind :
    ∀ (Q : List (List Sel)) (bottom : List Sel) (sels : List Sel) (m : Nat),
      Q.length + 1 ≤ m → (∀ e ∈ Q ++ [bottom], normalized e) →
      selectSmallerSyntaxNode^[m] ⟨sels, Q ++ [bottom]⟩ = ⟨bottom, []⟩ := by
  intro Q
  induction Q with
  | nil =>
    intro bottom sels m hm hnorm
    match m, hm with
    | k + 1, _ =>
      rw [Function.iterate_succ_apply]
      rw [show selectSmallerSyntaxNode ⟨sels, [] ++ [bottom]⟩ =
        ⟨mergeSelections bottom, []⟩ from rfl]
      rw [mergeSelections_of_normalized bottom (hnorm bottom (by simp))]
      exact smaller_iterate_empty k bottom
  | cons e Q' ih =>
    intro bottom sels m hm hnorm
    match m, hm with
    | k + 1, hm =>
      rw [Function.iterate_succ_apply]
      rw [show selectSmallerSyntaxNode ⟨sels, (e :: Q') ++ [bottom]⟩ =
        ⟨mergeSelections e, Q' ++ [bottom]⟩ from rfl]
      rw [mergeSelections_of_normalized e (hnorm e (by simp))]
      exact ih bottom e k (by simpa using hm)
        (fun d hd => hnorm d (by simp [List.mem_append] at hd ⊢; tauto))

/-- `select_larger_syntax_node` when some selection grew. -/
theorem selectLarger_grown (chain : Nat × Nat → List (Nat × Nat)) (fold : Nat → Bool)
    (st : SyntaxEditor) (hg : grownFlag chain fold st = true) :
    selectLargerSyntaxNode chain fold st =
      ⟨mergeSelections (List.insertionSort relStart (st.selections.map (expandSel chain fold))),
        st.selections :: st.stack⟩ := by
  unfold selectLargerSyntaxNode
  rw [if_pos hg]

/-- `select_larger_syntax_node` when no selection grew: the state is untouched. -/
theorem selectLarger_not_grown (chain : Nat × Nat → List (Nat × Nat)) (fold : Nat → Bool)
    (st : SyntaxEditor) (hg : grownFlag chain fold st = false) :
    selectLargerSyntaxNode chain fold st = st := by
  unfold selectLargerSyntaxNode
  rw [if_neg (by rw [hg]; exact Bool.false_ne_true)]

/-- Iterating `select_larger` from an empty stack: either no call ever grew a
selection and the state is untouched, or the stack holds the pushed snapshots
with the original selections at the bottom, and every entry as well as the
live selections is normalized and well formed. -/
theorem larger_iterate_spec (chain : Nat × Nat → List (Nat × Nat)) (fold : Nat → Bool)
    (hchain : ∀ r : Nat × Nat, ∀ c ∈ chain r, c.1 ≤ c.2) :
    ∀ (n : Nat) (st : SyntaxEditor), normalized st.selections → (∀ s ∈ st.selections, s.wf) →
      st.stack = [] →
      ((selectLargerSyntaxNode chain fold)^[n] st = st) ∨
      ∃ Q, ((selectLargerSyntaxNode chain fold)^[n] st).stack = Q ++ [st.selections] ∧
        Q.length + 1 ≤ n ∧
        (∀ e ∈ Q ++ [st.selections], normalized e ∧ ∀ s ∈ e, s.wf) ∧
        normalized ((selectLargerSyntaxNode chain fold)^[n] st).selections ∧
        ∀ s ∈ ((selectLargerSyntaxNode chain fold)^[n] st).selections, s.wf := by
  intro n
  induction n with
  | zero => intro st _ _ _; exact Or.inl rfl
  | succ n ih =>
    intro st hnorm hwf hstack
    rw [Function.iterate_succ_apply']
    rcases ih st hnorm hwf hstack with h | ⟨Q, hQ, hlen, hent, hnorm', hwf'⟩
    · rw [h]
      by_cases hg : grownFlag chain fold st = true
      · right
        rw [selectLarger_grown chain fold st hg]
        refine ⟨[], ?_, by simp, ?_, ?_, ?_⟩
        · rw [hstack]
          rfl
        · intro e he
          simp at he
          rw [he]
          exact ⟨hnorm, hwf⟩
        · exact (selectLarger_selections_normWf chain fold hchain st.selections hwf).1
        · exact (selectLarger_selections_normWf chain fold hchain st.selections hwf).2
      · left
        exact selectLarger_not_grown chain fold st (by simpa using hg)
    · by_cases hg : grownFlag chain fold ((selectLargerSyntaxNode chain fold)^[n] st) = true
      · right
        rw [selectLarger_grown chain fold _ hg]
        refine ⟨((selectLargerSyntaxNode chain fold)^[n] st).selections :: Q, ?_,
          by simp; omega, ?_, ?_, ?_⟩
        · rw [hQ]
          rfl
        · intro e he
          rcases List.mem_cons.mp he with h' | h'
          · rw [h']
            exact ⟨hnorm', hwf'⟩
          · exact hent e h'
        · exact (selectLarger_selections_normWf chain fold hchain _ hwf').1
        · exact (selectLarger_selections_normWf chain fold hchain _ hwf').2
      · right
        rw [selectLarger_not_grown chain fold _ (by simpa using hg)]
        exact ⟨Q, hQ, by omega, hent, hnorm', hwf'⟩

/-- C7 (confirmed): `select_larger_syntax_node` pushes the pre-expansion
selections only when at least one selection grew (otherwise the whole state is
untouched); `select_smaller_syntax_node` is a no-op on an empty stack and
otherwise pops the most recent pushed set and restores it verbatim; hence,
starting from an empty expansion stack, n `select_larger` calls followed by n
`select_smaller` calls restore the exact pre-expansion state. -/
theorem C7_syntax_selection_stack (chain : Nat × Nat → List (Nat × Nat))
    (fold : Nat → Bool) (hchain : ∀ r : Nat × Nat, ∀ c ∈ chain r, c.1 ≤ c.2) :
    (∀ st : SyntaxEditor,
      (grownFlag chain fold st = false → selectLargerSyntaxNode chain fold st = st) ∧
      (grownFlag chain fold st = true →
        (selectLargerSyntaxNode chain fold st).stack = st.selections :: st.stack)) ∧
    (∀ sels : List Sel, selectSmallerSyntaxNode ⟨sels, []⟩ = ⟨sels, []⟩) ∧
    (∀ (sels e : List Sel) (rest : List (List Sel)), normalized e →
      selectSmallerSyntaxNode ⟨sels, e :: rest⟩ = ⟨e, rest⟩) ∧
    ∀ (n : Nat) (st : SyntaxEditor), normalized st.selections →
      (∀ s ∈ st.selections, s.wf) → st.stack = [] →
      selectSmallerSyntaxNode^[n] ((selectLargerSyntaxNode chain fold)^[n] st) = st := by
  refine ⟨?_, ?_, ?_, ?_⟩
  · intro st
    constructor
    · intro h
      unfold selectLargerSyntaxNode
      rw [if_neg (by rw [h]; exact Bool.false_ne_true)]
    · intro h
      unfold selectLargerSyntaxNode
      rw [if_pos h]
  · intro sels
    rfl
  · intro sels e rest h
    show (⟨mergeSelections e, rest⟩ : SyntaxEditor) = ⟨e, rest⟩
    rw [mergeSelections_of_normalized e h]
  · intro n st hnorm hwf hstack
    have hsteta : (⟨st.selections, []⟩ : SyntaxEditor) = st := by rw [← hstack]
    rcases larger_iterate_spec chain fold hchain n st hnorm hwf hstack with
      h | ⟨Q, hQ, hlen, hent, _, _⟩
    · rw [h, ← hsteta]
      exact smaller_iterate_empty n st.selections
    · rw [show (selectLargerSyntaxNode chain fold)^[n] st =
        (⟨((selectLargerSyntaxNode chain fold)^[n] st).selections,
          Q ++ [st.selections]⟩ : SyntaxEditor) from by rw [← hQ]]
      rw [smaller_unwind Q st.selections _ n hlen (fun e he => (hent e he).1)]
      exact hsteta

/-- C7 (witness): one `select_larger` (ancestor chain sends `1..2` to `0..3`,
nothing folded) followed by one `select_smaller` restores the original single
selection and the empty stack. -/
theorem C7_witness :
    selectSmallerSyntaxNode^[1]
        ((selectLargerSyntaxNode
            (fun r => if r = (1, 2) then [(0, 3)] else []) (fun _ => false))^[1]
          ⟨[⟨0, 1, 2, false, SelectionGoal.none⟩], []⟩) =
      ⟨[⟨0, 1, 2, false, SelectionGoal.none⟩], []⟩ := by
  have hchain : ∀ r : Nat × Nat,
      ∀ c ∈ (fun r => if r = ((1 : Nat), (2 : Nat)) then [((0 : Nat), (3 : Nat))] else []) r,
        c.1 ≤ c.2 := by
    intro r c hc
    dsimp only at hc
    split at hc
    · simp at hc
      rw [hc]
      decide
    · simp at hc
  exact (C7_syntax_selection_stack _ _ hchain).2.2.2 1
    ⟨[⟨0, 1, 2, false, SelectionGoal.none⟩], []⟩ (by simp [normalized]) (by decide) rfl

/-- A committed buffer transaction: its id and the text before and after.
Modelled from the spec: the TextBuffer collaborator (§6, §4.2) is not under
src/, only the editor is. -/
structure BufferTx where
  id : Nat
  before : List Char
  after : List Char
deriving DecidableEq

/-- Modelled from the spec: the TextBuffer collaborator — text, undo and redo
stacks of committed transactions (most recent first), a fresh-id counter, and
the currently open transaction (its id and the text when it opened). -/
structure Buffer where
  text : List Char
  undoStack : List BufferTx
  redoStack : List BufferTx
  nextTxId : Nat
  openTx : Option (Nat × List Char)
deriving DecidableEq

/-- Modelled from the spec: `buffer.start_transaction_at` opens a fresh
transaction and reports its id; a nested start reports none, since grouped
transactions keep only the outermost snapshots. -/
def Buffer.startTx (b : Buffer) : Option Nat × Buffer :=
  match b.openTx with
  | Option.none =>
    (some b.nextTxId,
      { b with openTx := some (b.nextTxId, b.text), nextTxId := b.nextTxId + 1 })
  | some _ => (Option.none, b)

/-- Modelled from the spec: `buffer.end_transaction_at` commits the open
transaction and reports its id; a no-op transaction (no text change) reports
none and records nothing; committing clears the redo stack. -/
def Buffer.endTx (b : Buffer) : Option Nat × Buffer :=
  match b.openTx with
  | Option.none => (Option.none, b)
  | some (id, before) =>
    if b.text = before then (Option.none, { b with openTx := Option.none })
    else
      (some id,
        { b with openTx := Option.none,
                 undoStack := ⟨id, before, b.text⟩ :: b.undoStack,
                 redoStack := [] })

/-- Modelled from the spec: `buffer.undo` reverts the most recent committed
transaction, restores its before-text and reports its id; none when there is
nothing to undo. -/
def Buffer.undo (b : Buffer) : Option Nat × Buffer :=
  match b.undoStack with
  | [] => (Option.none, b)
  | tx :: rest =>
    (some tx.id,
      { b with text := tx.before, undoStack := rest, redoStack := tx :: b.redoStack })

/-- Modelled from the spec: `buffer.redo` reapplies the most recently undone
transaction, restores its after-text and reports its id. -/
def Buffer.redo (b : Buffer) : Option Nat × Buffer :=
  match b.redoStack with
  | [] => (Option.none, b)
  | tx :: rest =>
    (some tx.id,
      { b with text := tx.after, undoStack := tx :: b.undoStack, redoStack := rest })

/-- The editor state for the transaction/undo-selection linkage: the buffer, the
live selections, and `selection_history` mapping transaction ids to
before/after SelectionSet snapshots (most recent first). -/
structure HistEditor where
  buffer : Buffer
  selections : List Sel
  selectionHistory : List (Nat × (List Sel × Option (List Sel)))
deriving DecidableEq

/-- `selection_history.get(&tx_id)`. -/
def histFind (id : Nat) :
    List (Nat × (List Sel × Option (List Sel))) → Option (List Sel × Option (List Sel))
  | [] => Option.none
  | e :: rest => if e.1 = id then some e.2 else histFind id rest

/-- `self.selection_history.get_mut(&tx_id).unwrap().1 = Some(..)`
(editor.rs:3301). -/
def histSetAfter (id : Nat) (after : List Sel) :
    List (Nat × (List Sel × Option (List Sel))) → List (Nat × (List Sel × Option (List Sel)))
  | [] => []
  | e :: rest =>
    if e.1 = id then (e.1, (e.2.1, some after)) :: rest
    else e :: histSetAfter id after rest

/-- `Editor::start_transaction_at` (editor.rs:3281-3290): when the buffer opens
a transaction, record the pre-edit selections against its id. -/
def startTransaction (ed : HistEditor) : HistEditor :=
  let r := ed.buffer.startTx
  match r.1 with
  | some txId =>
    { ed with buffer := r.2,
              selectionHistory := (txId, (ed.selections, Option.none)) :: ed.selectionHistory }
  | Option.none => { ed with buffer := r.2 }

/-- `Editor::end_transaction_at` (editor.rs:3296-3303): when the buffer commits
a transaction, record the post-edit selections against its id. -/
def endTransaction (ed : HistEditor) : HistEditor :=
  let r := ed.buffer.endTx
  match r.1 with
  | some txId =>
    { ed with buffer := r.2,
              selectionHistory := histSetAfter txId ed.selections ed.selectionHistory }
  | Option.none => { ed with buffer := r.2 }

/-- `Editor::insert` wrapped in its transaction (editor.rs:1258-1285): record
the before snapshot, apply the multi-range edit, install the collapsed
selections, record the after snapshot. -/
def insertCommand (ed : HistEditor) (s : List Char) : HistEditor :=
  let ed₁ := startTransaction ed
  let r := insertGo s ed₁.selections 0 ed₁.buffer.text
  let ed₂ := { ed₁ with
    buffer := { ed₁.buffer with text := r.1 },
    selections := mergeSelections r.2 }
  endTransaction ed₂

/-- `Editor::undo` (editor.rs:1982-1989): ask the buffer which transaction it
reverted; restore the recorded before-snapshot when one exists. -/
def editorUndo (ed : HistEditor) : HistEditor :=
  let r := ed.buffer.undo
  match r.1 with
  | some txId =>
    match histFind txId ed.selectionHistory with
    | some (before, _) => { ed with buffer := r.2, selections := before }
    | Option.none => { ed with buffer := r.2 }
  | Option.none => { ed with buffer := r.2 }

/-- `Editor::redo` (editor.rs:1991-1998): ask the buffer which transaction it
reapplied; restore the recorded after-snapshot when one exists. -/
def editorRedo (ed : HistEditor) : HistEditor :=
  let r := ed.buffer.redo
  match r.1 with
  | some txId =>
    match histFind txId ed.selectionHistory with
    | some (_, some after) => { ed with buffer := r.2, selections := after }
    | some (_, Option.none) => { ed with buffer := r.2 }
    | Option.none => { ed with buffer := r.2 }
  | Option.none => { ed with buffer := r.2 }

/-- C2 (confirmed): whenever the buffer reports a reverted transaction on undo
and a before-snapshot was recorded for that id, undo restores the SelectionSet
to exactly that snapshot (and the buffer to the transaction's before-text);
redo symmetrically restores the recorded after-snapshot; and for an
uncoalesced text-changing insert, undo restores both the original text and the
exact original SelectionSet, as does undo(redo(undo(insert))). -/
theorem C2_undo_restores_selection_snapshots :
    (∀ (ed : HistEditor) (tx : BufferTx) (rest : List BufferTx)
        (before : List Sel) (aft : Option (List Sel)),
      ed.buffer.undoStack = tx :: rest →
      histFind tx.id ed.selectionHistory = some (before, aft) →
      (editorUndo ed).selections = before ∧ (editorUndo ed).buffer.text = tx.before) ∧
    (∀ (ed : HistEditor) (tx : BufferTx) (rest : List BufferTx)
        (before aft : List Sel),
      ed.buffer.redoStack = tx :: rest →
      histFind tx.id ed.selectionHistory = some (before, some aft) →
      (editorRedo ed).selections = aft ∧ (editorRedo ed).buffer.text = tx.after) ∧
    ∀ (ed : HistEditor) (s : List Char),
      ed.buffer.openTx = Option.none →
      (insertGo s ed.selections 0 ed.buffer.text).1 ≠ ed.buffer.text →
      ((editorUndo (insertCommand ed s)).buffer.text = ed.buffer.text ∧
        (editorUndo (insertCommand ed s)).selections = ed.selections) ∧
      ((editorUndo (editorRedo (editorUndo (insertCommand ed s)))).buffer.text =
          ed.buffer.text ∧
        (editorUndo (editorRedo (editorUndo (insertCommand ed s)))).selections =
          ed.selections) := by
  refine ⟨?_, ?_, ?_⟩
  · intro ed tx rest before aft hstack hfind
    unfold editorUndo Buffer.undo
    rw [hstack]
    simp [hfind]
  · intro ed tx rest before aft hstack hfind
    unfold editorRedo Buffer.redo
    rw [hstack]
    simp [hfind]
  · intro ed s hopen hneq
    have hcmd : insertCommand ed s =
        { buffer :=
            { text := (insertGo s ed.selections 0 ed.buffer.text).1,
              undoStack :=
                ⟨ed.buffer.nextTxId, ed.buffer.text,
                  (insertGo s ed.selections 0 ed.buffer.text).1⟩ :: ed.buffer.undoStack,
              redoStack := [],
              nextTxId := ed.buffer.nextTxId + 1,
              openTx := Option.none },
          selections := mergeSelections (insertGo s ed.selections 0 ed.buffer.text).2,
          selectionHistory :=
            (ed.buffer.nextTxId,
              (ed.selections,
                some (mergeSelections (insertGo s ed.selections 0 ed.buffer.text).2))) ::
              ed.selectionHistory } := by
      unfold insertCommand startTransaction endTransaction Buffer.startTx Buffer.endTx
      simp [hopen, hneq, histSetAfter]
    rw [hcmd]
    have hundo : editorUndo
        { buffer :=
            { text := (insertGo s ed.selections 0 ed.buffer.text).1,
              undoStack :=
                ⟨ed.buffer.nextTxId, ed.buffer.text,
                  (insertGo s ed.selections 0 ed.buffer.text).1⟩ :: ed.buffer.undoStack,
              redoStack := [],
              nextTxId := ed.buffer.nextTxId + 1,
              openTx := Option.none },
          selections := mergeSelections (insertGo s ed.selections 0 ed.buffer.text).2,
          selectionHistory :=
            (ed.buffer.nextTxId,
              (ed.selections,
                some (mergeSelections (insertGo s ed.selections 0 ed.buffer.text).2))) ::
              ed.selectionHistory } =
        { buffer :=
            { text := ed.buffer.text,
              undoStack := ed.buffer.undoStack,
              redoStack :=
                [⟨ed.buffer.nextTxId, ed.buffer.text,
                  (insertGo s ed.selections 0 ed.buffer.text).1⟩],
              nextTxId := ed.buffer.nextTxId + 1,
              openTx := Option.none },
          selections := ed.selections,
          selectionHistory :=
            (ed.buffer.nextTxId,
              (ed.selections,
                some (mergeSelections (insertGo s ed.selections 0 ed.buffer.text).2))) ::
              ed.selectionHistory } := by
      unfold editorUndo Buffer.undo
      simp [histFind]
    rw [hundo]
    refine ⟨⟨rfl, rfl⟩, ?_⟩
    have hredo : editorRedo
        { buffer :=
            { text := ed.buffer.text,
              undoStack := ed.buffer.undoStack,
              redoStack :=
                [⟨ed.buffer.nextTxId, ed.buffer.text,
                  (insertGo s ed.selections 0 ed.buffer.text).1⟩],
              nextTxId := ed.buffer.nextTxId + 1,
              openTx := Option.none },
          selections := ed.selections,
          selectionHistory :=
            (ed.buffer.nextTxId,
              (ed.selections,
                some (mergeSelections (insertGo s ed.selections 0 ed.buffer.text).2))) ::
              ed.selectionHistory } =
        { buffer :=
            { text := (insertGo s ed.selections 0 ed.buffer.text).1,
              undoStack :=
                ⟨ed.buffer.nextTxId, ed.buffer.text,
                  (insertGo s ed.selections 0 ed.buffer.text).1⟩ :: ed.buffer.undoStack,
              redoStack := [],
              nextTxId := ed.buffer.nextTxId + 1,
              openTx := Option.none },
          selections := mergeSelections (insertGo s ed.selections 0 ed.buffer.text).2,
          selectionHistory :=
            (ed.buffer.nextTxId,
              (ed.selections,
                some (mergeSelections (insertGo s ed.selections 0 ed.buffer.text).2))) ::
              ed.selectionHistory } := by
      unfold editorRedo Buffer.redo
      simp [histFind]
    rw [hredo]
    have hundo₂ := hundo
    rw [hundo₂]
    exact ⟨rfl, rfl⟩

/-- C2 (witness): the spec scenario — text `"123456"`, selection `2..4`,
insert `"cd"`, undo: text and selection are restored exactly. -/
theorem C2_witness :
    (editorUndo (insertCommand
        ⟨⟨['1', '2', '3', '4', '5', '6'], [], [], 0, Option.none⟩,
          [⟨0, 2, 4, false, SelectionGoal.none⟩], []⟩
        ['c', 'd'])).buffer.text = ['1', '2', '3', '4', '5', '6'] ∧
      (editorUndo (insertCommand
        ⟨⟨['1', '2', '3', '4', '5', '6'], [], [], 0, Option.none⟩,
          [⟨0, 2, 4, false, SelectionGoal.none⟩], []⟩
        ['c', 'd'])).selections = [⟨0, 2, 4, false, SelectionGoal.none⟩] :=
  (C2_undo_restores_selection_snapshots.2.2
    ⟨⟨['1', '2', '3', '4', '5', '6'], [], [], 0, Option.none⟩,
      [⟨0, 2, 4, false, SelectionGoal.none⟩], []⟩
    ['c', 'd'] rfl (by decide)).1

/-- Modelled from the spec: the word-character class used by the Movement
collaborator (movement.rs is not under src/) — letters, digits, underscore. -/
def isWordChar (c : Char) : Bool := c.isAlphanum || c = '_'

/-- Modelled from the spec: `movement::is_inside_word` — a position falls
inside a word when word characters sit immediately on both of its sides. -/
def insideWord (text : List Char) (i : Nat) : Bool :=
  decide (0 < i) && decide (i < text.length) &&
    isWordChar (text.getD (i - 1) ' ') && isWordChar (text.getD i ' ')

/-- The candidate loop of `select_next` (editor.rs:2559-2581) over one byte
range `[p, b)`: scan the successive non-overlapping matches of `q` (the
`AhoCorasick::stream_find_iter` order) and return the first that survives the
word-bound filter: a candidate is rejected when word-bounded (`ww`) and either
match edge falls inside a word. -/
def findAccepted (text q : List Char) (ww : Bool) (p b : Nat) : Option (Nat × Nat) :=
  if h : b < p + q.length then Option.none
  else if (text.drop p).take q.length = q then
    if ww = false ∨ (insideWord text p = false ∧ insideWord text (p + q.length) = false) then
      some (p, p + q.length)
    else if hq : q.length = 0 then Option.none
    else findAccepted text q ww (p + q.length) b
  else findAccepted text q ww (p + 1) b
termination_by b + 1 - p
decreasing_by
  · omega
  · omega

/-- `SelectNextState`: the compiled query, the word-bounded flag, the done
flag. -/
structure SelectNextSt where
  query : List Char
  wordwise : Bool
  done : Bool
deriving DecidableEq

/-- The editor state `select_next` touches: text, selections, the search
state, and the fresh-selection-id counter. -/
structure SNEditor where
  text : List Char
  selections : List Sel
  selectNextState : Option SelectNextSt
  nextSelectionId : Nat
deriving DecidableEq

/-- The wraparound search of one `select_next` reuse step (editor.rs:2556-2566):
scan from the end of the highest-id selection to the buffer end, then (if no
hit) from the buffer start to the start of the lowest-id selection. -/
def selectNextCandidate (text : List Char) (s : SelectNextSt) (firstSel lastSel : Sel) :
    Option (Nat × Nat) :=
  match findAccepted text s.query s.wordwise lastSel.stop text.length with
  | some r => some r
  | Option.none => findAccepted text s.query s.wordwise 0 firstSel.start

/-- One `select_next` call with an active matcher (editor.rs:2549-2605): a done
state is a no-op; otherwise search; on a hit, append a fresh selection with the
matched range (first removing the newest selection when `replace_newest`),
re-sort by start and install; on a miss after the full wrap, set done. -/
def selectNextStep (replaceNewest : Bool) (st : SNEditor) : SNEditor :=
  match st.selectNextState with
  | Option.none => st
  | some s =>
    if s.done then st
    else
      match minById st.selections, maxById st.selections with
      | some firstSel, some lastSel =>
        match selectNextCandidate st.text s firstSel lastSel with
        | some r =>
          let sels₁ :=
            if replaceNewest then st.selections.filter (fun t => decide (t.id ≠ lastSel.id))
            else st.selections
          { st with
              selections := mergeSelections (List.insertionSort relStart
                (sels₁ ++ [⟨st.nextSelectionId, r.1, r.2, false, SelectionGoal.none⟩])),
              nextSelectionId := st.nextSelectionId + 1,
              selectNextState := some s }
        | Option.none => { st with selectNextState := some { s with done := true } }
      | _, _ => st

/-- Modelled from the spec: `movement::surrounding_word` — snap a position to
the enclosing run of word characters (movement.rs is not under src/). -/
def surroundingWord (text : List Char) (pos : Nat) : Nat × Nat :=
  (pos - ((text.take pos).reverse.takeWhile isWordChar).length,
    pos + ((text.drop pos).takeWhile isWordChar).length)

/-- `buffer.text_for_range`. -/
def sliceText (text : List Char) (a b : Nat) : List Char :=
  (text.drop a).take (b - a)

/-- `Editor::select_next` (editor.rs:2544-2640): with an active matcher, run a
reuse step; with exactly one empty selection, snap it to the enclosing word
and compile a word-bounded matcher; with exactly one non-empty selection,
compile a verbatim matcher and run one step; otherwise do nothing. -/
def selectNext (replaceNewest : Bool) (st : SNEditor) : SNEditor :=
  match st.selectNextState with
  | some _ => selectNextStep replaceNewest st
  | Option.none =>
    match st.selections with
    | [sel] =>
      if sel.start = sel.stop then
        let w := surroundingWord st.text sel.start
        { st with
            selections := mergeSelections [⟨sel.id, w.1, w.2, false, SelectionGoal.none⟩],
            selectNextState := some ⟨sliceText st.text w.1 w.2, true, false⟩ }
      else
        selectNextStep replaceNewest
          { st with
              selectNextState := some ⟨sliceText st.text sel.start sel.stop, false, false⟩ }
    | _ => st

/-- Every accepted candidate lies inside the scanned range, spans exactly the
query, matches the text, and respects the word-bound filter. -/
theorem findAccepted_spec :
    ∀ (text q : List Char) (ww : Bool) (p b : Nat) (r : Nat × Nat),
      findAccepted text q ww p b = some r →
      p ≤ r.1 ∧ r.2 = r.1 + q.length ∧ r.2 ≤ b ∧
        (ww = true → insideWord text r.1 = false ∧ insideWord text r.2 = false) ∧
        (text.drop r.1).take q.length = q := by
  intro text q ww p b
  induction p, b using findAccepted.induct text q ww with
  | case1 p b h =>
    intro r hr
    rw [findAccepted, dif_pos h] at hr
    exact absurd hr (by simp)
  | case2 p b h hslice hacc =>
    intro r hr
    rw [findAccepted, dif_neg h, if_pos hslice, if_pos hacc] at hr
    have hr' : r = (p, p + q.length) := by
      simpa using hr.symm
    rw [hr']
    refine ⟨Nat.le_refl p, rfl, by omega, ?_, hslice⟩
    intro hww
    rcases hacc with h' | h'
    · rw [hww] at h'
      exact absurd h' (by simp)
    · exact h'
  | case3 p b h hslice hacc hq =>
    intro r hr
    rw [findAccepted, dif_neg h, if_pos hslice, if_neg hacc, dif_pos hq] at hr
    exact absurd hr (by simp)
  | case4 p b h hslice hacc hq ih =>
    intro r hr
    rw [findAccepted, dif_neg h, if_pos hslice, if_neg hacc, dif_neg hq] at hr
    obtain ⟨h1, h2, h3, h4, h5⟩ := ih r hr
    exact ⟨by omega, h2, h3, h4, h5⟩
  | case5 p b h hslice ih =>
    intro r hr
    rw [findAccepted, dif_neg h, if_neg hslice] at hr
    obtain ⟨h1, h2, h3, h4, h5⟩ := ih r hr
    exact ⟨by omega, h2, h3, h4, h5⟩

/-- C8 (amended): for every `select_next` call with an active matcher that is
not done, the scan covers the range from the highest-id selection's end to the
buffer end and then, on a miss, from the buffer start to the lowest-id
selection's start — the selected match lies in one of those two regions, spans
exactly the query, matches the query text, and (when word-bounded) has neither
edge inside a word; on a full miss the done flag is set with text and
selections untouched; and a done state makes the call a no-op. -/
theorem C8_select_next_step (replaceNewest : Bool) :
    (∀ (text : List Char) (s : SelectNextSt) (firstSel lastSel : Sel) (r : Nat × Nat),
      selectNextCandidate text s firstSel lastSel = some r →
      ((lastSel.stop ≤ r.1 ∧ r.2 ≤ text.length) ∨ r.2 ≤ firstSel.start) ∧
        r.2 = r.1 + s.query.length ∧
        (text.drop r.1).take s.query.length = s.query ∧
        (s.wordwise = true →
          insideWord text r.1 = false ∧ insideWord text r.2 = false)) ∧
    (∀ (st : SNEditor) (s : SelectNextSt) (firstSel lastSel : Sel),
      st.selectNextState = some s → s.done = false →
      minById st.selections = some firstSel → maxById st.selections = some lastSel →
      selectNextCandidate st.text s firstSel lastSel = Option.none →
      selectNextStep replaceNewest st =
        { st with selectNextState := some { s with done := true } }) ∧
    ∀ (st : SNEditor) (s : SelectNextSt),
      st.selectNextState = some s → s.done = true →
      selectNextStep replaceNewest st = st := by
  refine ⟨?_, ?_, ?_⟩
  · intro text s firstSel lastSel r hr
    unfold selectNextCandidate at hr
    cases hseg : findAccepted text s.query s.wordwise lastSel.stop text.length with
    | some r' =>
      rw [hseg] at hr
      have hr' : r' = r := by simpa using hr
      obtain ⟨h1, h2, h3, h4, h5⟩ := findAccepted_spec _ _ _ _ _ r (hr' ▸ hseg)
      exact ⟨Or.inl ⟨h1, h3⟩, h2, h5, h4⟩
    | none =>
      rw [hseg] at hr
      obtain ⟨h1, h2, h3, h4, h5⟩ := findAccepted_spec _ _ _ _ _ r hr
      exact ⟨Or.inr h3, h2, h5, h4⟩
  · intro st s firstSel lastSel hstate hdone hmin hmax hcand
    unfold selectNextStep
    rw [hstate]
    simp [hdone, hmin, hmax, hcand]
  · intro st s hstate hdone
    unfold selectNextStep
    rw [hstate]
    simp [hdone]

/-- C8 (witness): a done search state makes `select_next` a no-op. -/
theorem C8_witness :
    selectNextStep false
        ⟨['a'], [⟨0, 0, 1, false, SelectionGoal.none⟩], some ⟨['a'], false, true⟩, 1⟩ =
      ⟨['a'], [⟨0, 0, 1, false, SelectionGoal.none⟩], some ⟨['a'], false, true⟩, 1⟩ :=
  (C8_select_next_step false).2.2
    ⟨['a'], [⟨0, 0, 1, false, SelectionGoal.none⟩], some ⟨['a'], false, true⟩, 1⟩
    ⟨['a'], false, true⟩ rfl rfl

/-- C8 (counterexample): the selected match *can* overlap already-selected
text.  In `"foo foo foo"` with the word-bounded matcher for `"foo"` active and
`foo` at 4..7 selected, two `select_next` calls wrap around and select 8..11
and then 0..3; the wrap gives the earliest-positioned selection the highest
id, so the third call scans forward from offset 3 and selects 4..7 — exactly
the text of the already-present selection id 0. -/
theorem C8_counterexample :
    selectNextStep false (selectNextStep false
        ⟨['f', 'o', 'o', ' ', 'f', 'o', 'o', ' ', 'f', 'o', 'o'],
          [⟨0, 4, 7, false, SelectionGoal.none⟩], some ⟨['f', 'o', 'o'], true, false⟩, 1⟩) =
      ⟨['f', 'o', 'o', ' ', 'f', 'o', 'o', ' ', 'f', 'o', 'o'],
        [⟨2, 0, 3, false, SelectionGoal.none⟩, ⟨0, 4, 7, false, SelectionGoal.none⟩,
          ⟨1, 8, 11, false, SelectionGoal.none⟩],
        some ⟨['f', 'o', 'o'], true, false⟩, 3⟩ ∧
    minById [⟨2, 0, 3, false, SelectionGoal.none⟩, ⟨0, 4, 7, false, SelectionGoal.none⟩,
        ⟨1, 8, 11, false, SelectionGoal.none⟩] = some ⟨0, 4, 7, false, SelectionGoal.none⟩ ∧
    maxById [⟨2, 0, 3, false, SelectionGoal.none⟩, ⟨0, 4, 7, false, SelectionGoal.none⟩,
        ⟨1, 8, 11, false, SelectionGoal.none⟩] = some ⟨2, 0, 3, false, SelectionGoal.none⟩ ∧
    selectNextCandidate ['f', 'o', 'o', ' ', 'f', 'o', 'o', ' ', 'f', 'o', 'o']
        ⟨['f', 'o', 'o'], true, false⟩ ⟨0, 4, 7, false, SelectionGoal.none⟩
        ⟨2, 0, 3, false, SelectionGoal.none⟩ = some (4, 7) ∧
    (⟨0, 4, 7, false, SelectionGoal.none⟩ : Sel) ∈
      [⟨2, 0, 3, false, SelectionGoal.none⟩, ⟨0, 4, 7, false, SelectionGoal.none⟩,
        ⟨1, 8, 11, false, SelectionGoal.none⟩] := by
  refine ⟨?_, by decide, by decide, ?_, by decide⟩
  · simp [selectNextStep, selectNextCandidate, findAccepted, insideWord, isWordChar,
      minById, maxById, relStart, mergeSelections, mergedSel, sliceText]
  · simp [selectNextCandidate, findAccepted, insideWord, isWordChar]

/-- C10 (confirmed): with no active search state and a selection count other
than one, `select_next` is a complete no-op — the whole state, in particular
text, selections and search state, is unchanged. -/
theorem C10_select_next_noop (st : SNEditor) (replaceNewest : Bool)
    (hstate : st.selectNextState = Option.none) (hlen : st.selections.length ≠ 1) :
    selectNext replaceNewest st = st := by
  unfold selectNext
  rw [hstate]
  cases hsel : st.selections with
  | nil => rfl
  | cons a t =>
    cases t with
    | nil =>
      rw [hsel] at hlen
      exact absurd rfl hlen
    | cons b u => rfl

/-- C10 (witness): two selections and no matcher — `select_next` changes
nothing. -/
theorem C10_witness :
    selectNext false
        ⟨['a', 'b'], [⟨0, 0, 1, false, SelectionGoal.none⟩, ⟨1, 2, 2, false, SelectionGoal.none⟩],
          Option.none, 2⟩ =
      ⟨['a', 'b'], [⟨0, 0, 1, false, SelectionGoal.none⟩, ⟨1, 2, 2, false, SelectionGoal.none⟩],
        Option.none, 2⟩ :=
  C10_select_next_noop
    ⟨['a', 'b'], [⟨0, 0, 1, false, SelectionGoal.none⟩, ⟨1, 2, 2, false, SelectionGoal.none⟩],
      Option.none, 2⟩ false rfl (by decide)

/-- A clipboard metadata record: the byte length of one copied slice and
whether that slice was an entire-line cut/copy. -/
structure ClipboardSelection where
  len : Nat
  isEntireLine : Bool
deriving DecidableEq

/-- The editor state `paste` touches. -/
structure PasteEditor where
  text : List Char
  selections : List Sel
deriving DecidableEq

/-- `selection.start - column` (editor.rs:1962-1963): the offset of the start
of the line containing `pos`. -/
def lineStartOf (text : List Char) (pos : Nat) : Nat :=
  pos - ((text.take pos).reverse.takeWhile (fun c => decide (c ≠ '\n'))).length

/-- One cursor's paste edit (editor.rs:1953-1973): delta-shift the selection,
choose the insertion range — the line start for an empty cursor receiving an
entire-line slice, the selection's range otherwise — splice the text, and
collapse the cursor after the inserted text.  Returns the chosen range, the
new text, the new selection, and the updated delta. -/
def pasteApply (sel : Sel) (toInsert : List Char) (entireLine : Bool) (delta : Int)
    (text : List Char) : (Nat × Nat) × List Char × Sel × Int :=
  let a := (Int.ofNat sel.start + delta).toNat
  let b := (Int.ofNat sel.stop + delta).toNat
  let range : Nat × Nat :=
    if a = b ∧ entireLine = true then (lineStartOf text a, lineStartOf text a) else (a, b)
  (range,
    text.take range.1 ++ toInsert ++ text.drop range.2,
    { sel with start := a + toInsert.length, stop := a + toInsert.length },
    delta + Int.ofNat toInsert.length - (Int.ofNat range.2 - Int.ofNat range.1))

/-- The per-cursor loop of `Editor::paste` (editor.rs:1938-1974): cursor i
consumes metadata slice i (`clipboard_selections.get(i)`), or the whole
clipboard text once the metadata ran out (after a count mismatch cleared it);
each performed edit is recorded as (position, inserted text). -/
def pasteGo (clipText : List Char) (allEntire : Bool) :
    List Sel → List ClipboardSelection → Int → Nat → List Char →
      List Char × List Sel × List (Nat × List Char)
  | [], _, _, _, text => (text, [], [])
  | sel :: rest, cs :: csRest, delta, startOff, text =>
    let toInsert := sliceText clipText startOff (startOff + cs.len)
    let ap := pasteApply sel toInsert cs.isEntireLine delta text
    let r := pasteGo clipText allEntire rest csRest ap.2.2.2 (startOff + cs.len) ap.2.1
    (r.1, ap.2.2.1 :: r.2.1, (ap.1.1, toInsert) :: r.2.2)
  | sel :: rest, [], delta, startOff, text =>
    let ap := pasteApply sel clipText allEntire delta text
    let r := pasteGo clipText allEntire rest [] ap.2.2.2 startOff ap.2.1
    (r.1, ap.2.2.1 :: r.2.1, (ap.1.1, clipText) :: r.2.2)

/-- `Editor::paste` (editor.rs:1927-1980) when the clipboard carries metadata:
when the slice count differs from the cursor count the metadata is cleared, so
every cursor receives the whole clipboard text; the per-cursor loop then runs
and the collapsed cursors are installed through `update_selections`. -/
def paste (st : PasteEditor) (clipText : List Char) (meta : List ClipboardSelection) :
    PasteEditor :=
  let clipSels := if meta.length ≠ st.selections.length then [] else meta
  let allEntire := meta.all (fun cs => cs.isEntireLine)
  let r := pasteGo clipText allEntire st.selections clipSels 0 0 st.text
  { text := r.1, selections := mergeSelections r.2.1 }

/-- The list of edits `paste` performs, in cursor order. -/
def pasteEdits (st : PasteEditor) (clipText : List Char)
    (meta : List ClipboardSelection) : List (Nat × List Char) :=
  let clipSels := if meta.length ≠ st.selections.length then [] else meta
  let allEntire := meta.all (fun cs => cs.isEntireLine)
  (pasteGo clipText allEntire st.selections clipSels 0 0 st.text).2.2

/-- The clipboard text split into its metadata slices, starting at a given
offset. -/
def clipChunks (clipText : List Char) : Nat → List ClipboardSelection → List (List Char)
  | _, [] => []
  | startOff, cs :: rest =>
    sliceText clipText startOff (startOff + cs.len) :: clipChunks clipText (startOff + cs.len) rest

theorem pasteGo_nil (clipText : List Char) (allEntire : Bool)
    (clipSels : List ClipboardSelection) (delta : Int) (startOff : Nat) (text : List Char) :
    pasteGo clipText allEntire [] clipSels delta startOff text = (text, [], []) := by
  cases clipSels <;> rfl

theorem pasteGo_edits_chunks (clipText : List Char) (allEntire : Bool) :
    ∀ (sels : List Sel) (clipSels : List ClipboardSelection),
      sels.length = clipSels.length →
      ∀ (delta : Int) (startOff : Nat) (text : List Char),
        (pasteGo clipText allEntire sels clipSels delta startOff text).2.2.map Prod.snd =
          clipChunks clipText startOff clipSels := by
  intro sels
  induction sels with
  | nil =>
    intro clipSels hlen delta startOff text
    cases clipSels with
    | nil => rfl
    | cons cs csRest => simp at hlen
  | cons sel rest ih =>
    intro clipSels hlen delta startOff text
    cases clipSels with
    | nil => simp at hlen
    | cons cs csRest =>
      unfold pasteGo clipChunks
      simp only [List.map_cons]
      rw [ih csRest (by simpa using hlen)]

theorem pasteGo_edits_full (clipText : List Char) (allEntire : Bool) :
    ∀ (sels : List Sel) (delta : Int) (startOff : Nat) (text : List Char),
      (pasteGo clipText allEntire sels [] delta startOff text).2.2.map Prod.snd =
        sels.map (fun _ => clipText) := by
  intro sels
  induction sels with
  | nil => intro delta startOff text; rfl
  | cons sel rest ih =>
    intro delta startOff text
    unfold pasteGo
    simp only [List.map_cons]
    rw [ih]

/-- C9 (confirmed): with N metadata slices and N cursors, the i-th performed
edit inserts exactly the i-th clipboard slice (matching by index); on a count
mismatch every cursor receives the full clipboard text; and a single empty
cursor receiving an entire-line slice inserts it before the start of its
current line, the caret ending up shifted by the inserted length. -/
theorem C9_paste_slices (clipText : List Char) :
    (∀ (st : PasteEditor) (meta : List ClipboardSelection),
      meta.length = st.selections.length →
      (pasteEdits st clipText meta).map Prod.snd = clipChunks clipText 0 meta) ∧
    (∀ (st : PasteEditor) (meta : List ClipboardSelection),
      meta.length ≠ st.selections.length →
      (pasteEdits st clipText meta).map Prod.snd = st.selections.map (fun _ => clipText)) ∧
    ∀ (text : List Char) (id pos : Nat) (rev : Bool) (g : SelectionGoal)
        (cs : ClipboardSelection),
      cs.isEntireLine = true →
      paste ⟨text, [⟨id, pos, pos, rev, g⟩]⟩ clipText [cs] =
        ⟨text.take (lineStartOf text pos) ++ sliceText clipText 0 cs.len ++
            text.drop (lineStartOf text pos),
          [⟨id, pos + (sliceText clipText 0 cs.len).length,
            pos + (sliceText clipText 0 cs.len).length, rev, g⟩]⟩ := by
  refine ⟨?_, ?_, ?_⟩
  · intro st meta hlen
    unfold pasteEdits
    rw [if_neg (by omega)]
    exact pasteGo_edits_chunks clipText _ st.selections meta hlen.symm 0 0 st.text
  · intro st meta hlen
    unfold pasteEdits
    rw [if_pos hlen]
    exact pasteGo_edits_full clipText _ st.selections 0 0 st.text
  · intro text id pos rev g cs henline
    unfold paste pasteGo pasteApply
    simp [henline, mergeSelections_singleton, sliceText, pasteGo_nil]

/-- C9 (witness): three one-character slices onto three cursors — the i-th
edit inserts exactly the i-th slice. -/
theorem C9_witness :
    (pasteEdits
        ⟨['x', 'y', 'z'],
          [⟨0, 0, 0, false, SelectionGoal.none⟩, ⟨1, 1, 1, false, SelectionGoal.none⟩,
            ⟨2, 2, 2, false, SelectionGoal.none⟩]⟩
        ['a', 'b', 'c'] [⟨1, false⟩, ⟨1, false⟩, ⟨1, false⟩]).map Prod.snd =
      [['a'], ['b'], ['c']] := by
  have h := (C9_paste_slices ['a', 'b', 'c']).1
    ⟨['x', 'y', 'z'],
      [⟨0, 0, 0, false, SelectionGoal.none⟩, ⟨1, 1, 1, false, SelectionGoal.none⟩,
        ⟨2, 2, 2, false, SelectionGoal.none⟩]⟩
    [⟨1, false⟩, ⟨1, false⟩, ⟨1, false⟩] (by decide)
  rw [h]
  decide
